import Mathlib

/-!
Verification of the two algorithms in `netcore1.py`:
`find_maximum_remainder` and `count_special_ranges`.

The Python code is shallowly embedded: Python `int` becomes `Int`
(Python `%` with a positive modulus agrees with `Int.emod`), Python
lists become `List Int` / `List Char`, `list.sort()` becomes
`List.insertionSort (· ≤ ·)` (Int values have no distinguishable equal
elements, so any correct sort yields the same list), and the two
unbounded loops (`bisect_left`'s binary search and the inner `while` of
the sliding window) are given a structurally decreasing fuel that
provably exceeds the number of iterations they can perform.
-/

/-- The remainder computation of `find_maximum_remainder`
(`remainder = value % k`, then `remainder += k` if negative).
With `Int.emod` and `k ≥ 1` the fix-up branch is dead, but it is kept
to mirror the source. -/
def pyRem (value k : Int) : Int :=
  let remainder := value % k
  if remainder < 0 then remainder + k else remainder

/-- The partitioning loop of `find_maximum_remainder`: walk `arr`,
computing each value's remainder and appending it to `odds` when the
value is odd (`value & 1` in the source) and to `evens` otherwise.
Returns `(evens, odds)` in traversal order. -/
def partitionRems (k : Int) : List Int → List Int × List Int
  | [] => ([], [])
  | value :: rest =>
    let remainder := pyRem value k
    let p := partitionRems k rest
    if value % 2 = 1 then (p.1, remainder :: p.2) else (remainder :: p.1, p.2)

/-- The binary search of Python's `bisect.bisect_left`
(`while lo < hi: mid = (lo+hi)//2; if a[mid] < x: lo = mid+1 else hi = mid`),
with fuel; each iteration shrinks `hi - lo`, so fuel `> hi - lo` suffices. -/
def bisectLeftAux (a : List Int) (x : Int) : Nat → Nat → Nat → Nat
  | 0, lo, _ => lo
  | fuel + 1, lo, hi =>
    if lo < hi then
      let mid := (lo + hi) / 2
      if a.getD mid 0 < x then bisectLeftAux a x fuel (mid + 1) hi
      else bisectLeftAux a x fuel lo mid
    else lo

/-- Python's `bisect_left(a, x)`: insertion point for `x` in `a`. -/
def bisectLeft (a : List Int) (x : Int) : Nat :=
  bisectLeftAux a x (a.length + 1) 0 a.length

/-- The update-and-early-return pattern `if candidate > best:
best = candidate; if best == target_best: return best` — the pattern that appears twice in
the loop body of `find_maximum_remainder`. `Sum.inl` is the early
return, `Sum.inr` continues with the (possibly updated) `best`. -/
def frBranch (k best candidate : Int) : Int ⊕ Int :=
  if best < candidate then
    if candidate = k - 1 then Sum.inl candidate else Sum.inr candidate
  else Sum.inr best

/-- Second half of the loop body (`if idx < len(odds)` branch), run only
when the first half did not return early. -/
def frStep2 (odds : List Int) (k e : Int) (idx : Nat) : Int ⊕ Int → Int ⊕ Int
  | Sum.inl b => Sum.inl b
  | Sum.inr best1 =>
    if idx < odds.length then frBranch k best1 ((e + odds.getD idx 0) % k)
    else Sum.inr best1

/-- One iteration of the `for even_rem in evens` loop body of
`find_maximum_remainder`: `target = k - even_rem`,
`idx = bisect_left(odds, target)`, then the two guarded branches.
`Sum.inl b` models the early `return best`; `Sum.inr b` means the loop
continues with `best = b`. -/
def frStep (odds : List Int) (k e best : Int) : Int ⊕ Int :=
  frStep2 odds k e (bisectLeft odds (k - e))
    (if 0 < bisectLeft odds (k - e) then
      frBranch k best (e + odds.getD (bisectLeft odds (k - e) - 1) 0)
    else Sum.inr best)

/-- The `for even_rem in evens` loop of `find_maximum_remainder`. -/
def frLoop (odds : List Int) (k : Int) : List Int → Int → Int
  | [], best => best
  | e :: rest, best =>
    match frStep odds k e best with
    | Sum.inl b => b
    | Sum.inr b => frLoop odds k rest b

/-- The function `find_maximum_remainder(n, arr, k)` from `netcore1.py`. -/
def find_maximum_remainder (n : Int) (arr : List Int) (k : Int) : Int :=
  if k = 1 then 0
  else
    let p := partitionRems k arr
    let evens := List.insertionSort (· ≤ ·) p.1
    let odds := List.insertionSort (· ≤ ·) p.2
    frLoop odds k evens 0

/-- Brute-force specification: the maximum of `(a + b) % k` over all
pairs of an even element `a` and an odd element `b` of `arr`
(`0` when no such pair exists). -/
def bruteMaxEvenOdd (arr : List Int) (k : Int) : Int :=
  (((arr.filter (fun a => a % 2 = 0)).map
      (fun a => (arr.filter (fun b => b % 2 = 1)).map (fun b => (a + b) % k))).flatten).foldr
    max 0

/-- The update `if candidate > best: best = candidate` without the early return. -/
def updBest (best candidate : Int) : Int :=
  if best < candidate then candidate else best

/-- Second half of the no-early-return loop body. -/
def frStepNE2 (odds : List Int) (k e : Int) (idx : Nat) (best1 : Int) : Int :=
  if idx < odds.length then updBest best1 ((e + odds.getD idx 0) % k) else best1

/-- Variant of `frStep` with the two early returns removed: the loop
body only updates `best` and always continues. -/
def frStepNE (odds : List Int) (k e best : Int) : Int :=
  frStepNE2 odds k e (bisectLeft odds (k - e))
    (if 0 < bisectLeft odds (k - e) then
      updBest best (e + odds.getD (bisectLeft odds (k - e) - 1) 0)
    else best)

/-- Loop of the no-early-return variant: always runs over all of `evens`. -/
def frLoopNE (odds : List Int) (k : Int) : List Int → Int → Int
  | [], best => best
  | e :: rest, best => frLoopNE odds k rest (frStepNE odds k e best)

/-- Variant of `find_maximum_remainder` with the early-return branches removed. -/
def findMaximumRemainderNE (n : Int) (arr : List Int) (k : Int) : Int :=
  if k = 1 then 0
  else
    let p := partitionRems k arr
    let evens := List.insertionSort (· ≤ ·) p.1
    let odds := List.insertionSort (· ≤ ·) p.2
    frLoopNE odds k evens 0

/-- The value carried by a loop-body outcome, whether or not it was an
early return. -/
def sumVal : Int ⊕ Int → Int := Sum.elim id id

/-- Python `%` with `ZeroDivisionError` modelled as `none`. -/
def pyModOpt (a k : Int) : Option Int :=
  if k = 0 then none else some (a % k)

/-- Fallible version of `pyRem`. -/
def pyRemOpt (value k : Int) : Option Int := do
  let remainder ← pyModOpt value k
  pure (if remainder < 0 then remainder + k else remainder)

/-- Fallible version of the partitioning loop. -/
def partitionRemsOpt (k : Int) : List Int → Option (List Int × List Int)
  | [] => some ([], [])
  | value :: rest => do
    let remainder ← pyRemOpt value k
    let p ← partitionRemsOpt k rest
    pure (if value % 2 = 1 then (p.1, remainder :: p.2) else (remainder :: p.1, p.2))

/-- Fallible version of `frStep2` (second half of the loop body). -/
def frStep2Opt (odds : List Int) (k e : Int) (idx : Nat) : Int ⊕ Int → Option (Int ⊕ Int)
  | Sum.inl b => some (Sum.inl b)
  | Sum.inr best1 =>
    if idx < odds.length then do
      let o ← odds.get? idx
      let c ← pyModOpt (e + o) k
      pure (frBranch k best1 c)
    else some (Sum.inr best1)

/-- Fallible version of the loop body: every list subscript goes
through `List.get?` and every `%` through `pyModOpt`, so an
out-of-bounds access or a zero modulus yields `none`. -/
def frStepOpt (odds : List Int) (k e best : Int) : Option (Int ⊕ Int) := do
  let afterFirst ←
    if 0 < bisectLeft odds (k - e) then do
      let o ← odds.get? (bisectLeft odds (k - e) - 1)
      pure (frBranch k best (e + o))
    else pure (Sum.inr best)
  frStep2Opt odds k e (bisectLeft odds (k - e)) afterFirst

/-- Fallible version of the `for even_rem in evens` loop. -/
def frLoopOpt (odds : List Int) (k : Int) : List Int → Int → Option Int
  | [], best => some best
  | e :: rest, best => do
    match ← frStepOpt odds k e best with
    | Sum.inl b => pure b
    | Sum.inr b => frLoopOpt odds k rest b

/-- Fallible (total, `Option`-valued) version of
`find_maximum_remainder`: every runtime error of the Python code is an
explicit `none`. -/
def findMaximumRemainderOpt (n : Int) (arr : List Int) (k : Int) : Option Int :=
  if k = 1 then some 0
  else do
    let p ← partitionRemsOpt k arr
    let evens := List.insertionSort (fun a b => a ≤ b) p.1
    let odds := List.insertionSort (fun a b => a ≤ b) p.2
    frLoopOpt odds k evens 0

/-- The list `binary = [1 if ch in special_set else 0 for ch in types]` of
`count_special_ranges` (membership in `set(specials)` is membership in
the string `specials`). -/
def mkBinary (types specials : List Char) : List Int :=
  types.map (fun ch => if ch ∈ specials then 1 else 0)

/-- The inner `while current > limit` loop of `count_at_most`
(`current -= binary[left]; left += 1`), with fuel; under the reachable
invariants the loop runs at most `b.length` times, so fuel
`b.length + 1` suffices. Returns the updated `(left, current)`. -/
def shrinkAux (b : List Int) (limit : Int) : Nat → Nat → Int → Nat × Int
  | 0, left, current => (left, current)
  | fuel + 1, left, current =>
    if limit < current then shrinkAux b limit fuel (left + 1) (current - b.getD left 0)
    else (left, current)

/-- The `for right, val in enumerate(binary)` loop of `count_at_most`:
`rest` is the not-yet-visited suffix of `binary` starting at index
`right`; state `(left, current, total)` as in the source. -/
def camGo (b : List Int) (limit : Int) : List Int → Nat → Nat → Int → Int → Int
  | [], _, _, _, total => total
  | v :: rest, right, left, current, total =>
    let current1 := current + v
    let s := shrinkAux b limit (b.length + 1) left current1
    camGo b limit rest (right + 1) s.1 s.2 (total + ((right : Int) - (s.1 : Int) + 1))

/-- The helper `count_at_most(limit)` from `count_special_ranges`, with the binary
indicator list as an explicit first argument (it is a closure variable
in the source). -/
def count_at_most (b : List Int) (limit : Int) : Int :=
  if limit < 0 then 0 else camGo b limit b 0 0 0 0

/-- The function `count_special_ranges(n, k, lower, upper, types, specials)` from
`netcore1.py`. -/
def count_special_ranges (n k lower upper : Int) (types specials : List Char) : Int :=
  let binary := mkBinary types specials
  count_at_most binary upper - count_at_most binary (lower - 1)

/-- Sum of the entries of `b` with index in `[l, r)` (out-of-range
indices contribute `0`). -/
def windowSum (b : List Int) (l r : Nat) : Int :=
  ∑ i ∈ Finset.Ico l r, b.getD i 0

/-- Number of start positions `l ≤ r` for which the window `[l, r]` of
`b` has sum at most `limit`. -/
def validCount (b : List Int) (limit : Int) (r : Nat) : Nat :=
  ((Finset.range (r + 1)).filter (fun l => windowSum b l (r + 1) ≤ limit)).card

/-- Brute-force count of the windows `[l, r]` of `b` with sum `≤ limit`. -/
def atMostPairs (b : List Int) (limit : Int) : Int :=
  ∑ r ∈ Finset.range b.length, (validCount b limit r : Int)

/-- Number of characters of the substring `types[l..r]` (inclusive
bounds) that belong to `specials`. -/
def specialsInSlice (types specials : List Char) (l r : Nat) : Nat :=
  (((types.drop l).take (r + 1 - l)).filter (fun ch => ch ∈ specials)).length

/-- Brute-force specification of `count_special_ranges`: the number of
pairs of positions `l ≤ r` of `types` whose substring `types[l..r]` has
its count of special characters inside `[lower, upper]`. -/
def bruteRangeCount (types specials : List Char) (lower upper : Int) : Int :=
  ∑ r ∈ Finset.range types.length,
    (((Finset.range (r + 1)).filter
        (fun l => lower ≤ (specialsInSlice types specials l r : Int) ∧
          (specialsInSlice types specials l r : Int) ≤ upper)).card : Int)

/-! ### Properties of the binary search -/

theorem bisectLeftAux_mem (a : List Int) (x : Int) :
    ∀ (fuel lo hi : Nat), lo ≤ hi →
      lo ≤ bisectLeftAux a x fuel lo hi ∧ bisectLeftAux a x fuel lo hi ≤ hi := by
  intro fuel
  induction fuel with
  | zero => intro lo hi h; exact ⟨le_refl lo, h⟩
  | succ fuel ih =>
    intro lo hi h
    simp only [bisectLeftAux]
    split
    · split
      · have h1 := ih ((lo + hi) / 2 + 1) hi (by omega)
        have h2 := h1.1
        exact ⟨by omega, h1.2⟩
      · have h1 := ih lo ((lo + hi) / 2) (by omega)
        have h2 := h1.2
        exact ⟨h1.1, by omega⟩
    · exact ⟨le_refl lo, h⟩

theorem bisectLeft_le_length (a : List Int) (x : Int) : bisectLeft a x ≤ a.length :=
  (bisectLeftAux_mem a x (a.length + 1) 0 a.length (Nat.zero_le _)).2

theorem sorted_getD_le (a : List Int) (hs : a.Sorted (fun p q => p ≤ q)) {i j : Nat}
    (hij : i ≤ j) (hj : j < a.length) : a.getD i 0 ≤ a.getD j 0 := by
  have hi : i < a.length := lt_of_le_of_lt hij hj
  rw [List.getD_eq_getElem a 0 hi, List.getD_eq_getElem a 0 hj]
  have h := @List.Sorted.rel_get_of_le Int (fun p q => p ≤ q) _ a hs ⟨i, hi⟩ ⟨j, hj⟩ hij
  simpa [List.get_eq_getElem] using h

theorem bisectLeftAux_spec (a : List Int) (x : Int) (hs : a.Sorted (fun p q => p ≤ q)) :
    ∀ (fuel lo hi : Nat), lo ≤ hi → hi ≤ a.length → hi - lo < fuel →
      (∀ j, j < lo → a.getD j 0 < x) →
      (∀ j, hi ≤ j → j < a.length → x ≤ a.getD j 0) →
      (∀ j, j < bisectLeftAux a x fuel lo hi → a.getD j 0 < x) ∧
      (∀ j, bisectLeftAux a x fuel lo hi ≤ j → j < a.length → x ≤ a.getD j 0) := by
  intro fuel
  induction fuel with
  | zero => intro lo hi _ _ hf _ _; exact absurd hf (Nat.not_lt_zero _)
  | succ fuel ih =>
    intro lo hi hlohi hhi hf hlow hhigh
    simp only [bisectLeftAux]
    split
    · rename_i hlt
      split
      · rename_i hmid
        apply ih ((lo + hi) / 2 + 1) hi (by omega) hhi (by omega)
        · intro j hj
          have hjm : j ≤ (lo + hi) / 2 := by omega
          calc a.getD j 0 ≤ a.getD ((lo + hi) / 2) 0 :=
                sorted_getD_le a hs hjm (by omega)
            _ < x := hmid
        · exact hhigh
      · rename_i hmid
        apply ih lo ((lo + hi) / 2) (by omega) (by omega) (by omega) hlow
        intro j hj hjlen
        calc x ≤ a.getD ((lo + hi) / 2) 0 := not_lt.mp hmid
          _ ≤ a.getD j 0 := sorted_getD_le a hs hj hjlen
    · rename_i hlt
      exact ⟨hlow, fun j hj hl => hhigh j (by omega) hl⟩

theorem bisectLeft_spec (a : List Int) (x : Int) (hs : a.Sorted (fun p q => p ≤ q)) :
    (∀ j, j < bisectLeft a x → a.getD j 0 < x) ∧
    (∀ j, bisectLeft a x ≤ j → j < a.length → x ≤ a.getD j 0) :=
  bisectLeftAux_spec a x hs (a.length + 1) 0 a.length (Nat.zero_le _) (le_refl _)
    (by omega) (fun j hj => absurd hj (Nat.not_lt_zero _))
    (fun j hj hl => absurd hl (by omega))

/-! ### Bounds on the loop of `find_maximum_remainder` -/

theorem sumVal_frBranch (k best c : Int) : sumVal (frBranch k best c) = updBest best c := by
  unfold frBranch updBest sumVal
  split_ifs <;> rfl

theorem frBranch_inl {k best c b : Int} (h : frBranch k best c = Sum.inl b) :
    b = k - 1 ∧ b = c ∧ best < c := by
  unfold frBranch at h
  split_ifs at h with h1 h2
  all_goals simp_all

theorem updBest_bound {k best c : Int} (h0 : 0 ≤ best) (h1 : best ≤ k - 1) (hc : c ≤ k - 1) :
    0 ≤ updBest best c ∧ updBest best c ≤ k - 1 := by
  unfold updBest
  split_ifs <;> constructor <;> omega

theorem candidate1_le (odds : List Int) (hs : odds.Sorted (fun p q => p ≤ q)) (k e : Int)
    (hpos : 0 < bisectLeft odds (k - e)) :
    e + odds.getD (bisectLeft odds (k - e) - 1) 0 ≤ k - 1 := by
  have h := (bisectLeft_spec odds (k - e) hs).1 (bisectLeft odds (k - e) - 1) (by omega)
  omega

theorem candidate2_bound (k c : Int) (hk : 0 < k) : 0 ≤ c % k ∧ c % k ≤ k - 1 := by
  refine ⟨Int.emod_nonneg c (by omega), ?_⟩
  have := Int.emod_lt_of_pos c hk
  omega

theorem frStep2_bound (odds : List Int) (k e : Int) (idx : Nat) (af : Int ⊕ Int)
    (hk : 0 < k) (haf0 : 0 ≤ sumVal af) (haf1 : sumVal af ≤ k - 1) :
    0 ≤ sumVal (frStep2 odds k e idx af) ∧ sumVal (frStep2 odds k e idx af) ≤ k - 1 := by
  cases af with
  | inl b => exact ⟨haf0, haf1⟩
  | inr b1 =>
    simp only [frStep2]
    split_ifs with hlt
    · rw [sumVal_frBranch]
      exact updBest_bound haf0 haf1 (candidate2_bound k _ hk).2
    · exact ⟨haf0, haf1⟩

theorem frStep_bound (odds : List Int) (hs : odds.Sorted (fun p q => p ≤ q)) (k e best : Int)
    (hk : 0 < k) (h0 : 0 ≤ best) (h1 : best ≤ k - 1) :
    0 ≤ sumVal (frStep odds k e best) ∧ sumVal (frStep odds k e best) ≤ k - 1 := by
  unfold frStep
  have haf : 0 ≤ sumVal (if 0 < bisectLeft odds (k - e) then
        frBranch k best (e + odds.getD (bisectLeft odds (k - e) - 1) 0)
      else Sum.inr best) ∧
      sumVal (if 0 < bisectLeft odds (k - e) then
        frBranch k best (e + odds.getD (bisectLeft odds (k - e) - 1) 0)
      else Sum.inr best) ≤ k - 1 := by
    split_ifs with hpos
    · rw [sumVal_frBranch]
      exact updBest_bound h0 h1 (candidate1_le odds hs k e hpos)
    · exact ⟨h0, h1⟩
  exact frStep2_bound odds k e _ _ hk haf.1 haf.2

theorem frLoop_bound (odds : List Int) (hs : odds.Sorted (fun p q => p ≤ q)) (k : Int)
    (hk : 0 < k) :
    ∀ (lst : List Int) (best : Int), 0 ≤ best → best ≤ k - 1 →
      0 ≤ frLoop odds k lst best ∧ frLoop odds k lst best ≤ k - 1 := by
  intro lst
  induction lst with
  | nil => intro best h0 h1; exact ⟨h0, h1⟩
  | cons e rest ih =>
    intro best h0 h1
    have hb := frStep_bound odds hs k e best hk h0 h1
    simp only [frLoop]
    cases hstep : frStep odds k e best with
    | inl b => rw [hstep] at hb; exact hb
    | inr b => rw [hstep] at hb; exact ih b hb.1 hb.2

/-- C3: for every array `arr` and every `k ≥ 1`, the value returned by
`find_maximum_remainder n arr k` lies in the inclusive range `[0, k-1]`. -/
theorem find_maximum_remainder_in_range (n : Int) (arr : List Int) (k : Int) (hk : 1 ≤ k) :
    0 ≤ find_maximum_remainder n arr k ∧ find_maximum_remainder n arr k ≤ k - 1 := by
  unfold find_maximum_remainder
  split_ifs with h1
  · exact ⟨le_refl 0, by omega⟩
  · exact frLoop_bound (List.insertionSort (fun p q => p ≤ q) (partitionRems k arr).2)
      (List.sorted_insertionSort _ _) k (by omega)
      (List.insertionSort (fun p q => p ≤ q) (partitionRems k arr).1) 0 (le_refl 0) (by omega)

theorem find_maximum_remainder_in_range_witness :
    (1 : Int) ≤ 3 ∧ 0 ≤ find_maximum_remainder 5 [1, 2, 3, 4, 5] 3 ∧
      find_maximum_remainder 5 [1, 2, 3, 4, 5] 3 ≤ 3 - 1 :=
  ⟨by decide, find_maximum_remainder_in_range 5 [1, 2, 3, 4, 5] 3 (by decide)⟩

/-- C9: the unused parameters do not influence the results: `n` is dead
in `find_maximum_remainder` and `n`, `k` are dead in
`count_special_ranges` (two-run noninterference). -/
theorem unused_parameters_noninterference :
    ∀ (n1 n2 : Int) (arr : List Int) (k m1 m2 k1 k2 lower upper : Int)
      (types specials : List Char),
      find_maximum_remainder n1 arr k = find_maximum_remainder n2 arr k ∧
      count_special_ranges m1 k1 lower upper types specials =
        count_special_ranges m2 k2 lower upper types specials :=
  fun _ _ _ _ _ _ _ _ _ _ _ _ => ⟨rfl, rfl⟩

/-! ### The degenerate cases of `find_maximum_remainder` -/

theorem partitionRems_evens_nil (k : Int) (arr : List Int)
    (h : ∀ v ∈ arr, v % 2 = 1) : (partitionRems k arr).1 = [] := by
  induction arr with
  | nil => rfl
  | cons v rest ih =>
    simp only [partitionRems]
    rw [if_pos (h v (List.mem_cons_self v rest))]
    exact ih (fun w hw => h w (List.mem_cons_of_mem v hw))

theorem partitionRems_odds_nil (k : Int) (arr : List Int)
    (h : ∀ v ∈ arr, v % 2 = 0) : (partitionRems k arr).2 = [] := by
  induction arr with
  | nil => rfl
  | cons v rest ih =>
    simp only [partitionRems]
    have hv : ¬(v % 2 = 1) := by have := h v (List.mem_cons_self v rest); omega
    rw [if_neg hv]
    exact ih (fun w hw => h w (List.mem_cons_of_mem v hw))

theorem frStep_nil (k e best : Int) : frStep [] k e best = Sum.inr best := rfl

theorem frLoop_nil_odds (k : Int) :
    ∀ (lst : List Int) (best : Int), frLoop [] k lst best = best := by
  intro lst
  induction lst with
  | nil => intro best; rfl
  | cons e rest ih => intro best; simpa only [frLoop, frStep_nil] using ih best

/-- C5: `find_maximum_remainder` returns 0 whenever `k = 1`, and, for
every `k ≥ 1`, whenever `arr` contains no even element or no odd
element (in particular for empty `arr`). -/
theorem find_maximum_remainder_zero_cases (n : Int) (arr : List Int) (k : Int) :
    (k = 1 → find_maximum_remainder n arr k = 0) ∧
    (1 ≤ k → ((∀ v ∈ arr, v % 2 ≠ 0) ∨ (∀ v ∈ arr, v % 2 = 0)) →
      find_maximum_remainder n arr k = 0) := by
  constructor
  · intro h
    subst h
    rfl
  · intro hk hpar
    by_cases h1 : k = 1
    · subst h1; rfl
    · unfold find_maximum_remainder
      rw [if_neg h1]
      show frLoop (List.insertionSort (fun p q => p ≤ q) (partitionRems k arr).2) k
        (List.insertionSort (fun p q => p ≤ q) (partitionRems k arr).1) 0 = 0
      rcases hpar with hodd | heven
      · have he : (partitionRems k arr).1 = [] :=
          partitionRems_evens_nil k arr (fun v hv => by have := hodd v hv; omega)
        rw [he]
        rfl
      · have ho : (partitionRems k arr).2 = [] :=
          partitionRems_odds_nil k arr heven
        rw [ho]
        exact frLoop_nil_odds k _ 0

theorem find_maximum_remainder_zero_cases_witness :
    find_maximum_remainder 0 [1, 3] 1 = 0 ∧ find_maximum_remainder 0 [2, 4] 5 = 0 :=
  ⟨(find_maximum_remainder_zero_cases 0 [1, 3] 1).1 rfl,
    (find_maximum_remainder_zero_cases 0 [2, 4] 5).2 (by decide) (Or.inr (by decide))⟩

/-! ### Early return versus full scan -/

theorem frStep2_inl {odds : List Int} {k e : Int} {idx : Nat} {af : Int ⊕ Int} {b : Int}
    (haf : ∀ b', af = Sum.inl b' → b' = k - 1)
    (h : frStep2 odds k e idx af = Sum.inl b) : b = k - 1 := by
  cases af with
  | inl b' =>
    have h' : (Sum.inl b' : Int ⊕ Int) = Sum.inl b := h
    have hbb : b' = b := by injection h'
    exact hbb ▸ haf b' rfl
  | inr b1 =>
    have h' : (if idx < odds.length then frBranch k b1 ((e + odds.getD idx 0) % k)
        else Sum.inr b1) = Sum.inl b := h
    by_cases hlt : idx < odds.length
    · rw [if_pos hlt] at h'
      exact (frBranch_inl h').1
    · rw [if_neg hlt] at h'
      exact Sum.noConfusion h'

theorem frStep_inl {odds : List Int} {k e best b : Int}
    (h : frStep odds k e best = Sum.inl b) : b = k - 1 := by
  unfold frStep at h
  refine frStep2_inl ?_ h
  intro b' hb'
  by_cases hpos : 0 < bisectLeft odds (k - e)
  · rw [if_pos hpos] at hb'
    exact (frBranch_inl hb').1
  · rw [if_neg hpos] at hb'
    exact Sum.noConfusion hb'

theorem frStepNE2_eq_frStep2 (odds : List Int) (k e : Int) (idx : Nat) (af : Int ⊕ Int)
    (hk : 0 < k) (haf : ∀ b, af = Sum.inl b → b = k - 1) :
    frStepNE2 odds k e idx (sumVal af) = sumVal (frStep2 odds k e idx af) := by
  cases af with
  | inl b =>
    have hb := haf b rfl
    subst hb
    show frStepNE2 odds k e idx (k - 1) = k - 1
    simp only [frStepNE2]
    split_ifs with hlt
    · have h2 := (candidate2_bound k (e + odds.getD idx 0) hk).2
      unfold updBest
      rw [if_neg (by omega)]
    · rfl
  | inr b1 =>
    show frStepNE2 odds k e idx b1 = sumVal (frStep2 odds k e idx (Sum.inr b1))
    simp only [frStepNE2, frStep2]
    split_ifs with hlt
    · exact (sumVal_frBranch k b1 _).symm
    · rfl

theorem frStepNE_eq (odds : List Int) (k e best : Int) (hk : 0 < k) :
    frStepNE odds k e best = sumVal (frStep odds k e best) := by
  unfold frStepNE frStep
  have haf : (if 0 < bisectLeft odds (k - e) then
        updBest best (e + odds.getD (bisectLeft odds (k - e) - 1) 0) else best) =
      sumVal (if 0 < bisectLeft odds (k - e) then
        frBranch k best (e + odds.getD (bisectLeft odds (k - e) - 1) 0) else Sum.inr best) := by
    split_ifs with hpos
    · exact (sumVal_frBranch k best _).symm
    · rfl
  rw [haf]
  apply frStepNE2_eq_frStep2 odds k e _ _ hk
  intro b hb
  by_cases hpos : 0 < bisectLeft odds (k - e)
  · rw [if_pos hpos] at hb
    exact (frBranch_inl hb).1
  · rw [if_neg hpos] at hb
    exact Sum.noConfusion hb

theorem frStepNE_fix (odds : List Int) (hs : odds.Sorted (fun p q => p ≤ q)) (k e : Int)
    (hk : 0 < k) : frStepNE odds k e (k - 1) = k - 1 := by
  unfold frStepNE
  have h1 : (if 0 < bisectLeft odds (k - e) then
      updBest (k - 1) (e + odds.getD (bisectLeft odds (k - e) - 1) 0) else (k - 1)) = k - 1 := by
    split_ifs with hpos
    · have hc := candidate1_le odds hs k e hpos
      unfold updBest
      rw [if_neg (by omega)]
    · rfl
  rw [h1]
  unfold frStepNE2
  split_ifs with hlt
  · have h2 := (candidate2_bound k (e + odds.getD (bisectLeft odds (k - e)) 0) hk).2
    unfold updBest
    rw [if_neg (by omega)]
  · rfl

theorem frLoopNE_fix (odds : List Int) (hs : odds.Sorted (fun p q => p ≤ q)) (k : Int)
    (hk : 0 < k) : ∀ (lst : List Int), frLoopNE odds k lst (k - 1) = k - 1 := by
  intro lst
  induction lst with
  | nil => rfl
  | cons e rest ih =>
    simp only [frLoopNE, frStepNE_fix odds hs k e hk]
    exact ih

theorem frLoop_eq_frLoopNE (odds : List Int) (hs : odds.Sorted (fun p q => p ≤ q)) (k : Int)
    (hk : 0 < k) :
    ∀ (lst : List Int) (best : Int), frLoop odds k lst best = frLoopNE odds k lst best := by
  intro lst
  induction lst with
  | nil => intro best; rfl
  | cons e rest ih =>
    intro best
    simp only [frLoop, frLoopNE]
    have hNE := frStepNE_eq odds k e best hk
    cases hstep : frStep odds k e best with
    | inl b =>
      rw [hstep] at hNE
      rw [hNE]
      have hb : b = k - 1 := frStep_inl hstep
      subst hb
      show k - 1 = frLoopNE odds k rest (k - 1)
      exact (frLoopNE_fix odds hs k hk rest).symm
    | inr b =>
      rw [hstep] at hNE
      rw [hNE]
      show frLoop odds k rest b = frLoopNE odds k rest b
      exact ih b

/-- C4: stopping the search the moment `best = k - 1` does not change
the result: for every `arr` and every `k ≥ 2`, `find_maximum_remainder`
(with its two early-return branches) returns the same value as the
variant `findMaximumRemainderNE` that never returns early and runs over
all of `evens`. -/
theorem find_maximum_remainder_eq_NE (n : Int) (arr : List Int) (k : Int) (hk : 2 ≤ k) :
    find_maximum_remainder n arr k = findMaximumRemainderNE n arr k := by
  unfold find_maximum_remainder findMaximumRemainderNE
  rw [if_neg (by omega : ¬k = 1), if_neg (by omega : ¬k = 1)]
  show frLoop (List.insertionSort (fun p q => p ≤ q) (partitionRems k arr).2) k
      (List.insertionSort (fun p q => p ≤ q) (partitionRems k arr).1) 0 =
    frLoopNE (List.insertionSort (fun p q => p ≤ q) (partitionRems k arr).2) k
      (List.insertionSort (fun p q => p ≤ q) (partitionRems k arr).1) 0
  exact frLoop_eq_frLoopNE _ (List.sorted_insertionSort _ _) k (by omega) _ 0

theorem find_maximum_remainder_eq_NE_witness :
    (2 : Int) ≤ 9 ∧
      find_maximum_remainder 3 [14, 15, 17] 9 = findMaximumRemainderNE 3 [14, 15, 17] 9 :=
  ⟨by decide, find_maximum_remainder_eq_NE 3 [14, 15, 17] 9 (by decide)⟩

/-! ### Absence of runtime errors (`Option` refinement) -/

theorem get?_eq_some_getD (l : List Int) (n : Nat) (h : n < l.length) :
    l.get? n = some (l.getD n 0) := by
  rw [List.get?_eq_get h, List.getD_eq_getElem l 0 h]
  rfl

theorem pyRemOpt_eq (value k : Int) (hk : k ≠ 0) :
    pyRemOpt value k = some (pyRem value k) := by
  unfold pyRemOpt pyModOpt pyRem
  rw [if_neg hk]
  rfl

theorem partitionRemsOpt_eq (k : Int) (hk : k ≠ 0) :
    ∀ arr : List Int, partitionRemsOpt k arr = some (partitionRems k arr) := by
  intro arr
  induction arr with
  | nil => rfl
  | cons v rest ih =>
    simp only [partitionRemsOpt, pyRemOpt_eq v k hk, ih]
    rfl

theorem frStep2Opt_eq (odds : List Int) (k e : Int) (idx : Nat) (af : Int ⊕ Int)
    (hk : k ≠ 0) :
    frStep2Opt odds k e idx af = some (frStep2 odds k e idx af) := by
  cases af with
  | inl b => rfl
  | inr b1 =>
    by_cases hlt : idx < odds.length
    · simp only [frStep2Opt, frStep2, pyModOpt, get?_eq_some_getD odds idx hlt, hlt, hk,
        if_true, if_false, ite_true, ite_false]
      rfl
    · simp only [frStep2Opt, frStep2, if_neg hlt]

theorem frStepOpt_eq (odds : List Int) (k e best : Int) (hk : k ≠ 0) :
    frStepOpt odds k e best = some (frStep odds k e best) := by
  unfold frStepOpt frStep
  by_cases hpos : 0 < bisectLeft odds (k - e)
  · have h1 : bisectLeft odds (k - e) - 1 < odds.length := by
      have := bisectLeft_le_length odds (k - e)
      omega
    rw [if_pos hpos, if_pos hpos, get?_eq_some_getD odds _ h1]
    exact frStep2Opt_eq odds k e _ _ hk
  · rw [if_neg hpos, if_neg hpos]
    show frStep2Opt odds k e (bisectLeft odds (k - e)) (Sum.inr best) =
      some (frStep2 odds k e (bisectLeft odds (k - e)) (Sum.inr best))
    exact frStep2Opt_eq odds k e _ _ hk

theorem frLoopOpt_eq (odds : List Int) (k : Int) (hk : k ≠ 0) :
    ∀ (lst : List Int) (best : Int),
      frLoopOpt odds k lst best = some (frLoop odds k lst best) := by
  intro lst
  induction lst with
  | nil => intro best; rfl
  | cons e rest ih =>
    intro best
    simp only [frLoopOpt, frLoop, frStepOpt_eq odds k e best hk]
    cases hstep : frStep odds k e best with
    | inl b => rfl
    | inr b => exact ih b

/-- C10: for every `arr` and every `k ≥ 1`, `find_maximum_remainder`
executes without any runtime error: in the total embedding
`findMaximumRemainderOpt`, where `%` guards against a zero modulus and
every list subscript returns an `Option`, the error branch is
unreachable and the computed value is exactly that of
`find_maximum_remainder`. -/
theorem findMaximumRemainderOpt_eq (n : Int) (arr : List Int) (k : Int) (hk : 1 ≤ k) :
    findMaximumRemainderOpt n arr k = some (find_maximum_remainder n arr k) := by
  unfold findMaximumRemainderOpt find_maximum_remainder
  by_cases h1 : k = 1
  · rw [if_pos h1, if_pos h1]
  · rw [if_neg h1, if_neg h1, partitionRemsOpt_eq k (by omega) arr]
    show frLoopOpt (List.insertionSort (fun p q => p ≤ q) (partitionRems k arr).2) k
        (List.insertionSort (fun p q => p ≤ q) (partitionRems k arr).1) 0 =
      some (frLoop (List.insertionSort (fun p q => p ≤ q) (partitionRems k arr).2) k
        (List.insertionSort (fun p q => p ≤ q) (partitionRems k arr).1) 0)
    exact frLoopOpt_eq _ k (by omega) _ 0

theorem findMaximumRemainderOpt_eq_witness :
    (1 : Int) ≤ 9 ∧
      findMaximumRemainderOpt 3 [14, 15, 17] 9 = some (find_maximum_remainder 3 [14, 15, 17] 9) :=
  ⟨by decide, findMaximumRemainderOpt_eq 3 [14, 15, 17] 9 (by decide)⟩

/-- C1 (evidence of a code bug): on `n = 3`, `arr = [14, 15, 17]`,
`k = 9` the code returns 2, while the maximum of `(a + b) % k` over
pairs of an even and an odd element is 4 (attained by `14 + 17`):
the wrap-around branch pairs each even remainder with the smallest
odd remainder at least `k - e` instead of the largest one, so
`find_maximum_remainder` does not return the maximum. -/
theorem find_maximum_remainder_misses_maximum :
    find_maximum_remainder 3 [14, 15, 17] 9 = 2 ∧ bruteMaxEvenOdd [14, 15, 17] 9 = 4 := by
  constructor
  · decide
  · decide

/-! ### Range invariant on the remainder lists -/

theorem pyRem_mem_range (value k : Int) (hk : 1 ≤ k) :
    0 ≤ pyRem value k ∧ pyRem value k < k := by
  show 0 ≤ (if value % k < 0 then value % k + k else value % k) ∧
    (if value % k < 0 then value % k + k else value % k) < k
  have h0 : 0 ≤ value % k := Int.emod_nonneg value (by omega)
  have h1 : value % k < k := Int.emod_lt_of_pos value (by omega)
  rw [if_neg (by omega)]
  exact ⟨h0, h1⟩

theorem partitionRems_mem (k : Int) (hk : 1 ≤ k) :
    ∀ (arr : List Int),
      (∀ x ∈ (partitionRems k arr).1, 0 ≤ x ∧ x < k) ∧
      (∀ x ∈ (partitionRems k arr).2, 0 ≤ x ∧ x < k) := by
  intro arr
  induction arr with
  | nil =>
    exact ⟨fun x hx => absurd hx (List.not_mem_nil x),
      fun x hx => absurd hx (List.not_mem_nil x)⟩
  | cons v rest ih =>
    simp only [partitionRems]
    by_cases hv : v % 2 = 1
    · rw [if_pos hv]
      refine ⟨ih.1, ?_⟩
      intro x hx
      rcases List.mem_cons.mp hx with h | h
      · subst h; exact pyRem_mem_range v k hk
      · exact ih.2 x h
    · rw [if_neg hv]
      refine ⟨?_, ih.2⟩
      intro x hx
      rcases List.mem_cons.mp hx with h | h
      · subst h; exact pyRem_mem_range v k hk
      · exact ih.1 x h

/-- C8: for every `k ≥ 1` and every `arr`, every remainder that
`find_maximum_remainder` appends to `evens` or `odds` lies in `[0, k)`;
the invariant holds at every point of the partitioning loop (i.e. after
processing any prefix of `arr`) and after sorting both lists. -/
theorem partition_invariant (arr : List Int) (k : Int) (hk : 1 ≤ k) :
    (∀ t : Nat,
      (∀ x ∈ (partitionRems k (arr.take t)).1, 0 ≤ x ∧ x < k) ∧
      (∀ x ∈ (partitionRems k (arr.take t)).2, 0 ≤ x ∧ x < k)) ∧
    (∀ x ∈ List.insertionSort (fun p q => p ≤ q) (partitionRems k arr).1, 0 ≤ x ∧ x < k) ∧
    (∀ x ∈ List.insertionSort (fun p q => p ≤ q) (partitionRems k arr).2, 0 ≤ x ∧ x < k) := by
  refine ⟨fun t => partitionRems_mem k hk (arr.take t), ?_, ?_⟩
  · intro x hx
    exact (partitionRems_mem k hk arr).1 x ((List.mem_insertionSort _).mp hx)
  · intro x hx
    exact (partitionRems_mem k hk arr).2 x ((List.mem_insertionSort _).mp hx)

theorem partition_invariant_witness :
    (1 : Int) ≤ 5 ∧
      ((∀ t : Nat,
        (∀ x ∈ (partitionRems 5 ([3, -4, 7].take t)).1, 0 ≤ x ∧ x < 5) ∧
        (∀ x ∈ (partitionRems 5 ([3, -4, 7].take t)).2, 0 ≤ x ∧ x < 5)) ∧
      (∀ x ∈ List.insertionSort (fun p q => p ≤ q) (partitionRems 5 [3, -4, 7]).1,
        0 ≤ x ∧ x < 5) ∧
      (∀ x ∈ List.insertionSort (fun p q => p ≤ q) (partitionRems 5 [3, -4, 7]).2,
        0 ≤ x ∧ x < 5)) :=
  ⟨by decide, partition_invariant [3, -4, 7] 5 (by decide)⟩

/-! ### The sliding window of `count_special_ranges` -/

theorem getD_nonneg {b : List Int} (hb : ∀ x ∈ b, 0 ≤ x) (i : Nat) : 0 ≤ b.getD i 0 := by
  by_cases h : i < b.length
  · rw [List.getD_eq_getElem b 0 h]
    exact hb _ (List.getElem_mem h)
  · rw [List.getD_eq_default b 0 (by omega)]

theorem getD_le_one {b : List Int} (hb : ∀ x ∈ b, x ≤ 1) (i : Nat) : b.getD i 0 ≤ 1 := by
  by_cases h : i < b.length
  · rw [List.getD_eq_getElem b 0 h]
    exact hb _ (List.getElem_mem h)
  · rw [List.getD_eq_default b 0 (by omega)]
    omega

theorem windowSum_empty (b : List Int) {l r : Nat} (h : r ≤ l) : windowSum b l r = 0 := by
  unfold windowSum
  rw [Finset.Ico_eq_empty (by omega)]
  exact Finset.sum_empty

theorem windowSum_nonneg {b : List Int} (hb : ∀ x ∈ b, 0 ≤ x) (l r : Nat) :
    0 ≤ windowSum b l r :=
  Finset.sum_nonneg (fun i _ => getD_nonneg hb i)

theorem windowSum_succ_top (b : List Int) {l r : Nat} (h : l ≤ r) :
    windowSum b l (r + 1) = windowSum b l r + b.getD r 0 := by
  unfold windowSum
  exact Finset.sum_Ico_succ_top h _

theorem windowSum_succ_bot (b : List Int) {l r : Nat} (h : l < r) :
    windowSum b l r = b.getD l 0 + windowSum b (l + 1) r := by
  unfold windowSum
  exact Finset.sum_eq_sum_Ico_succ_bot h _

theorem windowSum_mono_left {b : List Int} (hb : ∀ x ∈ b, 0 ≤ x) (r : Nat) {l l' : Nat}
    (h : l ≤ l') : windowSum b l' r ≤ windowSum b l r := by
  by_cases hr : l' ≤ r
  · have hcons := Finset.sum_Ico_consecutive (fun i => b.getD i 0) h hr
    have h0 : (0 : Int) ≤ ∑ i ∈ Finset.Ico l l', b.getD i 0 :=
      Finset.sum_nonneg (fun i _ => getD_nonneg hb i)
    unfold windowSum
    linarith
  · rw [windowSum_empty b (by omega)]
    exact windowSum_nonneg hb l r

theorem windowSum_mono_right {b : List Int} (hb : ∀ x ∈ b, 0 ≤ x) (l : Nat) {r r' : Nat}
    (h : r ≤ r') : windowSum b l r ≤ windowSum b l r' := by
  by_cases hl : l ≤ r
  · have hcons := Finset.sum_Ico_consecutive (fun i => b.getD i 0) hl h
    have h0 : (0 : Int) ≤ ∑ i ∈ Finset.Ico r r', b.getD i 0 :=
      Finset.sum_nonneg (fun i _ => getD_nonneg hb i)
    unfold windowSum
    linarith
  · rw [windowSum_empty b (by omega)]
    exact windowSum_nonneg hb l r'

theorem shrinkAux_spec (b : List Int) (limit : Int) (hlim : 0 ≤ limit)
    (hb : ∀ x ∈ b, 0 ≤ x) (R : Nat) (hR : R ≤ b.length) :
    ∀ (fuel left : Nat) (current : Int),
      left ≤ R → R - left < fuel → current = windowSum b left R →
      left ≤ (shrinkAux b limit fuel left current).1 ∧
      (shrinkAux b limit fuel left current).1 ≤ R ∧
      (shrinkAux b limit fuel left current).2 =
        windowSum b (shrinkAux b limit fuel left current).1 R ∧
      (shrinkAux b limit fuel left current).2 ≤ limit ∧
      (∀ l, left ≤ l → l < (shrinkAux b limit fuel left current).1 →
        limit < windowSum b l R) := by
  intro fuel
  induction fuel with
  | zero => intro left current _ h2 _; exact absurd h2 (Nat.not_lt_zero _)
  | succ fuel ih =>
    intro left current h1 h2 h3
    simp only [shrinkAux]
    split_ifs with hgt
    · have hlR : left < R := by
        rcases Nat.lt_or_ge left R with h | h
        · exact h
        · exfalso
          rw [h3, windowSum_empty b h] at hgt
          omega
      have hstep : current - b.getD left 0 = windowSum b (left + 1) R := by
        rw [h3, windowSum_succ_bot b hlR]
        ring
      have hrec := ih (left + 1) (current - b.getD left 0) (by omega) (by omega) hstep
      refine ⟨le_trans (Nat.le_succ left) hrec.1, hrec.2.1, hrec.2.2.1, hrec.2.2.2.1, ?_⟩
      intro l hl1 hl2
      rcases Nat.eq_or_lt_of_le hl1 with heq | hlt2
      · rw [← heq, ← h3]
        exact hgt
      · exact hrec.2.2.2.2 l hlt2 hl2
    · exact ⟨le_refl left, h1, h3, by omega, fun l hl1 hl2 => absurd hl1 (by omega)⟩

theorem drop_cons_head {b : List Int} {right : Nat} {v : Int} {rest' : List Int}
    (h : b.drop right = v :: rest') :
    right < b.length ∧ b.getD right 0 = v ∧ b.drop (right + 1) = rest' := by
  have hlen : right < b.length := by
    have hl := congrArg List.length h
    simp only [List.length_drop, List.length_cons] at hl
    omega
  refine ⟨hlen, ?_, ?_⟩
  · have h0 : (b.drop right).getD 0 0 = v := by rw [h]; rfl
    rw [List.getD_eq_getElem _ 0 (by simp only [List.length_drop]; omega)] at h0
    rw [List.getElem_drop] at h0
    rw [List.getD_eq_getElem b 0 hlen]
    simpa using h0
  · have hd : (b.drop right).drop 1 = rest' := by rw [h]; rfl
    rw [List.drop_drop] at hd
    exact hd

theorem validCount_eq {b : List Int} (hb : ∀ x ∈ b, 0 ≤ x) (limit : Int) (r left1 : Nat)
    (h1 : left1 ≤ r + 1) (hup : windowSum b left1 (r + 1) ≤ limit)
    (hlow : ∀ l, l < left1 → limit < windowSum b l (r + 1)) :
    validCount b limit r = (r + 1) - left1 := by
  unfold validCount
  have hset : (Finset.range (r + 1)).filter (fun l => windowSum b l (r + 1) ≤ limit) =
      Finset.Ico left1 (r + 1) := by
    ext l
    simp only [Finset.mem_filter, Finset.mem_range, Finset.mem_Ico]
    constructor
    · rintro ⟨hlr, hsum⟩
      refine ⟨?_, hlr⟩
      by_contra hc
      exact absurd hsum (not_le.mpr (hlow l (by omega)))
    · rintro ⟨hl1, hlr⟩
      exact ⟨hlr, le_trans (windowSum_mono_left hb (r + 1) hl1) hup⟩
  rw [hset, Nat.card_Ico]

theorem camGo_spec (b : List Int) (limit : Int) (hlim : 0 ≤ limit) (hb : ∀ x ∈ b, 0 ≤ x) :
    ∀ (rest : List Int) (right left : Nat) (current total : Int),
      b.drop right = rest → right ≤ b.length → left ≤ right →
      current = windowSum b left right →
      (∀ l, l < left → limit < windowSum b l right) →
      total = ∑ r ∈ Finset.range right, (validCount b limit r : Int) →
      camGo b limit rest right left current total = atMostPairs b limit := by
  intro rest
  induction rest with
  | nil =>
    intro right left current total hdrop hr hl hcur hlow htot
    have hre : right = b.length := by
      have hle := congrArg List.length hdrop
      simp only [List.length_drop, List.length_nil] at hle
      omega
    subst hre
    simpa [camGo, atMostPairs] using htot
  | cons v rest' ih =>
    intro right left current total hdrop hr hl hcur hlow htot
    obtain ⟨hrlen, hv, hdrop'⟩ := drop_cons_head hdrop
    simp only [camGo]
    have hcur1 : current + v = windowSum b left (right + 1) := by
      rw [hcur, ← hv, windowSum_succ_top b hl]
    have hshr := shrinkAux_spec b limit hlim hb (right + 1) (by omega)
      (b.length + 1) left (current + v) (by omega) (by omega) hcur1
    set s := shrinkAux b limit (b.length + 1) left (current + v) with hs
    obtain ⟨hs1, hs2, hs3, hs4, hs5⟩ := hshr
    have hlow' : ∀ l, l < s.1 → limit < windowSum b l (right + 1) := by
      intro l hls
      by_cases hll : l < left
      · calc limit < windowSum b l right := hlow l hll
          _ ≤ windowSum b l (right + 1) := windowSum_mono_right hb l (by omega)
      · exact hs5 l (by omega) hls
    have hvc : validCount b limit right = (right + 1) - s.1 :=
      validCount_eq hb limit right s.1 hs2 (hs3 ▸ hs4) hlow'
    have htot' : total + ((right : Int) - (s.1 : Int) + 1) =
        ∑ r ∈ Finset.range (right + 1), (validCount b limit r : Int) := by
      rw [Finset.sum_range_succ, ← htot, hvc, Nat.cast_sub hs2]
      push_cast
      ring
    exact ih (right + 1) s.1 s.2 _ hdrop' (by omega) hs2 hs3 hlow' htot'

theorem count_at_most_eq_atMostPairs (b : List Int) (hb : ∀ x ∈ b, 0 ≤ x) (limit : Int) :
    count_at_most b limit = atMostPairs b limit := by
  unfold count_at_most
  split_ifs with hneg
  · unfold atMostPairs
    symm
    apply Finset.sum_eq_zero
    intro r _
    have hvz : validCount b limit r = 0 := by
      unfold validCount
      rw [Finset.card_eq_zero, Finset.filter_eq_empty_iff]
      intro l _
      have := windowSum_nonneg hb l (r + 1)
      omega
    rw [hvz]
    rfl
  · exact camGo_spec b limit (by omega) hb b 0 0 0 0 (List.drop_zero b) (by omega) (le_refl 0)
      (windowSum_empty b (le_refl 0)).symm (fun l hl => absurd hl (Nat.not_lt_zero l))
      (by simp)

/-- C7: the helper `count_at_most` is monotone in its limit on every
binary indicator sequence, and returns 0 for every negative limit. -/
theorem count_at_most_monotone (b : List Int) (hb : ∀ x ∈ b, x = 0 ∨ x = 1) :
    (∀ limit1 limit2 : Int, limit1 ≤ limit2 →
      count_at_most b limit1 ≤ count_at_most b limit2) ∧
    (∀ limit : Int, limit < 0 → count_at_most b limit = 0) := by
  have hb0 : ∀ x ∈ b, 0 ≤ x := by
    intro x hx
    rcases hb x hx with h | h <;> omega
  constructor
  · intro l1 l2 h12
    rw [count_at_most_eq_atMostPairs b hb0 l1, count_at_most_eq_atMostPairs b hb0 l2]
    unfold atMostPairs
    apply Finset.sum_le_sum
    intro r _
    have hcard : validCount b l1 r ≤ validCount b l2 r := by
      unfold validCount
      apply Finset.card_le_card
      apply Finset.monotone_filter_right
      intro l hl
      exact le_trans hl h12
    exact_mod_cast hcard
  · intro limit hneg
    unfold count_at_most
    rw [if_pos hneg]

theorem count_at_most_monotone_witness :
    (∀ x ∈ ([1, 0, 1] : List Int), x = 0 ∨ x = 1) ∧
      count_at_most [1, 0, 1] 1 ≤ count_at_most [1, 0, 1] 2 ∧
      count_at_most [1, 0, 1] (-1) = 0 :=
  ⟨by decide,
    (count_at_most_monotone [1, 0, 1] (by decide)).1 1 2 (by decide),
    (count_at_most_monotone [1, 0, 1] (by decide)).2 (-1) (by decide)⟩

/-! ### Bridging window sums and substring counts over `types` -/

theorem mkBinary_mem (types specials : List Char) :
    ∀ x ∈ mkBinary types specials, 0 ≤ x ∧ x ≤ 1 := by
  intro x hx
  rcases List.mem_map.mp hx with ⟨c, _, hcx⟩
  by_cases h : c ∈ specials
  · rw [if_pos h] at hcx
    omega
  · rw [if_neg h] at hcx
    omega

theorem sum_take_drop_eq (b : List Int) :
    ∀ (m l : Nat), ((b.drop l).take m).sum = ∑ i ∈ Finset.Ico l (l + m), b.getD i 0 := by
  intro m
  induction m with
  | zero => intro l; simp
  | succ m ihm =>
    intro l
    cases hdrop : b.drop l with
    | nil =>
      have hlen : b.length ≤ l := by
        have hl := congrArg List.length hdrop
        simp only [List.length_drop, List.length_nil] at hl
        omega
      simp only [hdrop, List.take_nil, List.sum_nil]
      symm
      apply Finset.sum_eq_zero
      intro i hi
      have hmem := Finset.mem_Ico.mp hi
      rw [List.getD_eq_default b 0 (by omega)]
    | cons x t =>
      obtain ⟨hlen, hx, ht⟩ := drop_cons_head hdrop
      simp only [hdrop, List.take_succ_cons, List.sum_cons]
      rw [← ht, ihm (l + 1)]
      have harith : l + 1 + m = l + (m + 1) := by omega
      rw [harith, Finset.sum_eq_sum_Ico_succ_bot (by omega : l < l + (m + 1)), hx]

theorem windowSum_eq_sum_take_drop (b : List Int) (l r : Nat) :
    windowSum b l r = ((b.drop l).take (r - l)).sum := by
  rcases le_or_lt l r with h | h
  · rw [sum_take_drop_eq b (r - l) l]
    have harith : l + (r - l) = r := by omega
    rw [harith]
    rfl
  · rw [windowSum_empty b (by omega)]
    have hz : r - l = 0 := by omega
    rw [hz]
    simp

theorem sum_map_indicator (specials : List Char) :
    ∀ lst : List Char,
      (lst.map (fun ch => if ch ∈ specials then (1 : Int) else 0)).sum =
        ((lst.filter (fun ch => ch ∈ specials)).length : Int) := by
  intro lst
  induction lst with
  | nil => rfl
  | cons c t ih =>
    by_cases hc : c ∈ specials
    · simp only [List.map_cons, List.sum_cons, List.filter_cons, hc, if_pos, ih,
        decide_eq_true_eq, List.length_cons]
      push_cast
      ring
    · simp [List.filter_cons, hc, ih]

theorem specialsInSlice_eq_windowSum (types specials : List Char) (l r : Nat) :
    (specialsInSlice types specials l r : Int) =
      windowSum (mkBinary types specials) l (r + 1) := by
  unfold specialsInSlice mkBinary
  rw [windowSum_eq_sum_take_drop, ← List.map_drop, ← List.map_take,
    sum_map_indicator specials ((types.drop l).take (r + 1 - l))]

theorem atMostPairs_sub (b : List Int) (lower upper : Int) (hle : lower ≤ upper) :
    atMostPairs b upper - atMostPairs b (lower - 1) =
      ∑ r ∈ Finset.range b.length,
        (((Finset.range (r + 1)).filter
          (fun l => lower ≤ windowSum b l (r + 1) ∧ windowSum b l (r + 1) ≤ upper)).card : Int) := by
  unfold atMostPairs
  rw [← Finset.sum_sub_distrib]
  apply Finset.sum_congr rfl
  intro r _
  have hsplit : (Finset.range (r + 1)).filter (fun l => windowSum b l (r + 1) ≤ upper) =
      ((Finset.range (r + 1)).filter (fun l => windowSum b l (r + 1) ≤ lower - 1)) ∪
      ((Finset.range (r + 1)).filter
        (fun l => lower ≤ windowSum b l (r + 1) ∧ windowSum b l (r + 1) ≤ upper)) := by
    rw [← Finset.filter_or]
    apply Finset.filter_congr
    intro l _
    generalize windowSum b l (r + 1) = S
    constructor
    · intro h
      rcases le_or_lt lower S with h' | h'
      · exact Or.inr ⟨h', h⟩
      · exact Or.inl (by omega)
    · rintro (h | h)
      · omega
      · exact h.2
  have hdisj : Disjoint
      ((Finset.range (r + 1)).filter (fun l => windowSum b l (r + 1) ≤ lower - 1))
      ((Finset.range (r + 1)).filter
        (fun l => lower ≤ windowSum b l (r + 1) ∧ windowSum b l (r + 1) ≤ upper)) := by
    rw [Finset.disjoint_left]
    intro l h1 h2
    simp only [Finset.mem_filter] at h1 h2
    have ha := h1.2
    have hc := h2.2.1
    linarith
  have hcards : validCount b upper r =
      validCount b (lower - 1) r +
      ((Finset.range (r + 1)).filter
        (fun l => lower ≤ windowSum b l (r + 1) ∧ windowSum b l (r + 1) ≤ upper)).card := by
    unfold validCount
    rw [hsplit, Finset.card_union_of_disjoint hdisj]
  rw [hcards]
  push_cast
  ring

/-- C2: for every `types`, `specials` and all integers `lower ≤ upper`,
`count_special_ranges` equals the brute-force count, over all pairs of
positions `l ≤ r`, of substrings of `types` whose number of characters
belonging to `specials` lies in `[lower, upper]`. -/
theorem count_special_ranges_eq_brute (n k lower upper : Int) (types specials : List Char)
    (hle : lower ≤ upper) :
    count_special_ranges n k lower upper types specials =
      bruteRangeCount types specials lower upper := by
  unfold count_special_ranges bruteRangeCount
  show count_at_most (mkBinary types specials) upper -
      count_at_most (mkBinary types specials) (lower - 1) = _
  have hb : ∀ x ∈ mkBinary types specials, 0 ≤ x :=
    fun x hx => (mkBinary_mem types specials x hx).1
  rw [count_at_most_eq_atMostPairs _ hb upper, count_at_most_eq_atMostPairs _ hb (lower - 1),
    atMostPairs_sub _ lower upper hle]
  have hlen : (mkBinary types specials).length = types.length := by
    simp [mkBinary]
  rw [hlen]
  apply Finset.sum_congr rfl
  intro r _
  have hfilter : (Finset.range (r + 1)).filter
      (fun l => lower ≤ windowSum (mkBinary types specials) l (r + 1) ∧
        windowSum (mkBinary types specials) l (r + 1) ≤ upper) =
    (Finset.range (r + 1)).filter
      (fun l => lower ≤ (specialsInSlice types specials l r : Int) ∧
        (specialsInSlice types specials l r : Int) ≤ upper) := by
    apply Finset.filter_congr
    intro l _
    rw [specialsInSlice_eq_windowSum types specials l r]
  rw [hfilter]

theorem count_special_ranges_eq_brute_witness :
    (1 : Int) ≤ 2 ∧
      count_special_ranges 5 2 1 2 ['a', 'b', 'c', 'a', 'b'] ['a', 'b'] =
        bruteRangeCount ['a', 'b', 'c', 'a', 'b'] ['a', 'b'] 1 2 :=
  ⟨by decide,
    count_special_ranges_eq_brute 5 2 1 2 ['a', 'b', 'c', 'a', 'b'] ['a', 'b'] (by decide)⟩

/-! ### Full-range count -/

theorem windowSum_le_card {b : List Int} (hb1 : ∀ x ∈ b, x ≤ 1) (l r : Nat) :
    windowSum b l r ≤ ((r - l : Nat) : Int) := by
  unfold windowSum
  calc ∑ i ∈ Finset.Ico l r, b.getD i 0 ≤ ∑ i ∈ Finset.Ico l r, 1 :=
        Finset.sum_le_sum (fun i _ => getD_le_one hb1 i)
    _ = ((Finset.Ico l r).card : Int) := by simp
    _ = ((r - l : Nat) : Int) := by rw [Nat.card_Ico]

theorem gauss_sum_int :
    ∀ m : Nat, 2 * (∑ r ∈ Finset.range m, ((r : Int) + 1)) = (m : Int) * ((m : Int) + 1) := by
  intro m
  induction m with
  | zero => simp
  | succ m ih =>
    rw [Finset.sum_range_succ, mul_add, ih]
    push_cast
    ring

/-- C6: for every `types` and `specials` (and any `n`, `k`),
`count_special_ranges n k 0 (length types) types specials` equals
`length * (length + 1) / 2`, the total number of contiguous substrings
of `types`. -/
theorem count_special_ranges_full (n k : Int) (types specials : List Char) :
    count_special_ranges n k 0 (types.length : Int) types specials =
      (types.length : Int) * ((types.length : Int) + 1) / 2 := by
  unfold count_special_ranges
  show count_at_most (mkBinary types specials) (types.length : Int) -
      count_at_most (mkBinary types specials) (0 - 1) = _
  have h2 : count_at_most (mkBinary types specials) (0 - 1) = 0 := by
    unfold count_at_most
    rw [if_pos (by omega)]
  rw [h2, sub_zero]
  have hb : ∀ x ∈ mkBinary types specials, 0 ≤ x :=
    fun x hx => (mkBinary_mem types specials x hx).1
  have hb1 : ∀ x ∈ mkBinary types specials, x ≤ 1 :=
    fun x hx => (mkBinary_mem types specials x hx).2
  rw [count_at_most_eq_atMostPairs _ hb _]
  unfold atMostPairs
  have hlen : (mkBinary types specials).length = types.length := by
    simp [mkBinary]
  rw [hlen]
  have hcount : ∀ r ∈ Finset.range types.length,
      (validCount (mkBinary types specials) (types.length : Int) r : Int) = (r : Int) + 1 := by
    intro r hr
    have hfull : (Finset.range (r + 1)).filter
        (fun l => windowSum (mkBinary types specials) l (r + 1) ≤ (types.length : Int)) =
        Finset.range (r + 1) := by
      apply Finset.filter_true_of_mem
      intro l _
      calc windowSum (mkBinary types specials) l (r + 1)
          ≤ ((r + 1 - l : Nat) : Int) := windowSum_le_card hb1 l (r + 1)
        _ ≤ (types.length : Int) := by
            have hr' := Finset.mem_range.mp hr
            omega
    have hv : validCount (mkBinary types specials) (types.length : Int) r = r + 1 := by
      unfold validCount
      rw [hfull, Finset.card_range]
    rw [hv]
    push_cast
    ring
  rw [Finset.sum_congr rfl hcount]
  have hg := gauss_sum_int types.length
  rw [← hg, Int.mul_ediv_cancel_left _ (by norm_num : (2 : Int) ≠ 0)]
